import Mathlib

/-!
Verification of the menu aggregation and notification pipeline of the
ajou-lunch repository (src/menu_scraper.py and src/scheduler.py).

Python strings are modelled as `List Char` (one entry per Unicode scalar,
matching Python's per-code-point semantics of `len`, indexing and slicing);
`String` wrappers are provided for the top-level entry points.  The
`re.sub` calls of `clean_menu_text` all use patterns of one fixed shape
(`LIT`, optionally followed by `.*?LIT`, followed by `.*?(?=\n|\Z)` under
`re.DOTALL`), which is embedded directly: a lazy `.*?LIT` matches at the
first occurrence of `LIT`, and the trailing lazy `.*?(?=\n|\Z)` extends the
match to just before the next newline (or the end of the string).
`re.sub` replaces every match, scanning left to right and resuming after
each match.
-/

namespace AjouLunch

/-- The set of characters Python treats as whitespace for `str` patterns
(`\s` in `re`) and for `str.strip` with no argument. -/
def isPySpace (c : Char) : Bool :=
  let n := c.toNat
  n == 32 || n == 9 || n == 10 || n == 13 || n == 11 || n == 12 ||
  (decide (28 ≤ n) && decide (n ≤ 31)) || n == 133 || n == 160 || n == 5760 ||
  (decide (8192 ≤ n) && decide (n ≤ 8202)) || n == 8232 || n == 8233 ||
  n == 8239 || n == 8287 || n == 12288

/-- Whitespace other than a newline. -/
def wsNotNl (c : Char) : Bool := isPySpace c && !(c == '\n')

/-- Python `s.strip()`: drop leading and trailing whitespace. -/
def pyStrip (l : List Char) : List Char :=
  ((l.dropWhile isPySpace).reverse.dropWhile isPySpace).reverse

/-- Python `s.split('\n')`: e.g. `"" ↦ [""]`, `"a\nb" ↦ ["a", "b"]`,
`"a\n" ↦ ["a", ""]`. -/
def splitNl : List Char → List (List Char)
  | [] => [[]]
  | c :: cs =>
    if c = '\n' then [] :: splitNl cs
    else
      match splitNl cs with
      | [] => [[c]]
      | l :: ls => (c :: l) :: ls

/-- Python `"\n".join(xs)`. -/
def joinNl : List (List Char) → List Char
  | [] => []
  | [x] => x
  | x :: y :: xs => x ++ '\n' :: joinNl (y :: xs)

/-- One removal pattern of `clean_menu_text`: the literal `first :: restLit`,
then (when `mid = some w`) a lazy `.*?` up to the literal `w`, then a lazy
`.*?(?=\n|\Z)`.  The leading literal is structurally non-empty, so a match
always consumes at least one character. -/
structure Pat where
  first : Char
  restLit : List Char
  mid : Option (List Char)

/-- The leading literal of a pattern. -/
def Pat.lit (p : Pat) : List Char := p.first :: p.restLit

/-- The trailing lazy `.*?(?=\n|\Z)` (with `re.DOTALL`): consume up to, but
not including, the first newline; or to the end when there is none.
Returns the remainder of the string after the match. -/
def toEOL : List Char → List Char
  | [] => []
  | c :: cs => if c = '\n' then c :: cs else toEOL cs

/-- A lazy `.*?w` (with `re.DOTALL`): find the first occurrence of the
literal `w` and return the remainder after it; `none` when `w` does not
occur. -/
def findLit (w : List Char) : List Char → Option (List Char)
  | [] => if w.isEmpty then some [] else none
  | c :: cs =>
    if w.isPrefixOf (c :: cs) then some ((c :: cs).drop w.length)
    else findLit w cs

/-- Match one removal pattern at the start of `cs`; `some r` is the
remainder of the string after the matched region. -/
def matchPat (p : Pat) (cs : List Char) : Option (List Char) :=
  if p.lit.isPrefixOf cs then
    let r0 := cs.drop p.lit.length
    match p.mid with
    | none => some (toEOL r0)
    | some w =>
      match findLit w r0 with
      | some r1 => some (toEOL r1)
      | none => none
  else none

/-- Fuelled `re.sub(pattern, '', text)`: scan left to right, delete every
match, resume after the deleted region.  Each match consumes at least one
character, so `fuel = text.length` always suffices (see `subAllF_fuel`). -/
def subAllF (p : Pat) : Nat → List Char → List Char
  | 0, cs => cs
  | _ + 1, [] => []
  | fuel + 1, c :: cs =>
    match matchPat p (c :: cs) with
    | some rest => subAllF p fuel rest
    | none => c :: subAllF p fuel cs

/-- `re.sub(pattern, '', text, flags=re.DOTALL)` for one removal pattern. -/
def subAll (p : Pat) (cs : List Char) : List Char := subAllF p cs.length cs

/-- The closing literal `안내]` of the bracketed-notice pattern. -/
def noticeClose : List Char := '안' :: '내' :: ']' :: []

/-- Pattern `\[.*?안내\].*?(?=\n|\Z)`. -/
def noticePat : Pat := ⟨'[', [], some noticeClose⟩

/-- Pattern `-.*?운영.*?(?=\n|\Z)`. -/
def dashOperPat : Pat := ⟨'-', [], some ('운' :: '영' :: [])⟩

/-- Pattern `\*.*?운영.*?(?=\n|\Z)`. -/
def starOperPat : Pat := ⟨'*', [], some ('운' :: '영' :: [])⟩

/-- Pattern `※.*?(?=\n|\Z)`. -/
def refMarkPat : Pat := ⟨'※', [], none⟩

/-- Pattern `<.*?원>.*?(?=\n|\Z)`. -/
def pricePat : Pat := ⟨'<', [], some ('원' :: '>' :: [])⟩

/-- Pattern `★.*?★.*?(?=\n|\Z)`. -/
def starsPat : Pat := ⟨'★', [], some ('★' :: [])⟩

/-- Pattern `후식음료:.*?(?=\n|\Z)`. -/
def beveragePat : Pat := ⟨'후', '식' :: '음' :: '료' :: ':' :: [], none⟩

/-- The `for pattern in patterns_to_remove` loop of `clean_menu_text`,
unrolled in source order. -/
def removeAll (cs : List Char) : List Char :=
  subAll beveragePat (subAll starsPat (subAll pricePat (subAll refMarkPat
    (subAll starOperPat (subAll dashOperPat (subAll noticePat cs))))))

/-- For `re.sub(r'\n\s*\n+', '\n', s)`: given the text after a matched
leading `\n`, when the maximal whitespace run at the front contains another
newline, return the remainder just after the last newline of that run
(that is exactly the region `\s*\n+` consumes, by greediness);
`none` when the run contains no newline (so the pattern does not match). -/
def nlSkip : List Char → Option (List Char)
  | [] => none
  | c :: cs =>
    if isPySpace c then
      match nlSkip cs with
      | some r => some r
      | none => if c = '\n' then some cs else none
    else none

/-- Fuelled `re.sub(r'\n\s*\n+', '\n', text)`: each replaced region is
non-empty, so `fuel = text.length` suffices (see `collapseF_fuel`). -/
def collapseF : Nat → List Char → List Char
  | 0, cs => cs
  | _ + 1, [] => []
  | fuel + 1, c :: cs =>
    if c = '\n' then
      match nlSkip cs with
      | some r => '\n' :: collapseF fuel r
      | none => '\n' :: collapseF fuel cs
    else c :: collapseF fuel cs

/-- `re.sub(r'\n\s*\n+', '\n', text)`: collapse blank-line runs. -/
def collapseBlank (cs : List Char) : List Char := collapseF cs.length cs

/-- `clean_menu_text` over `List Char`: the seven removal substitutions in
source order, then blank-line collapsing, then `strip()`. -/
def cleanCore (cs : List Char) : List Char :=
  pyStrip (collapseBlank (removeAll cs))

/-- `clean_menu_text(text)` of src/menu_scraper.py. -/
def clean_menu_text (s : String) : String := ⟨cleanCore s.data⟩

/-- The two meal slots `extract_meal_menu` is called with, in rendering
order (`("lunch", "점심")` before `("dinner", "저녁")`). -/
inductive MealSlot
  | lunch
  | dinner
deriving DecidableEq

/-- A parsed upstream page (`BeautifulSoup` document), abstracted to what
`extract_meal_menu` reads from it: for each meal slot, the flattened text
`box.get_text("\n", strip=True)` of the region selected by
`.b-menu-day.lunch` / `.b-menu-day.dinner`, or `none` when
`soup.select_one` finds no such region. -/
structure Soup where
  lunchBox : Option (List Char)
  dinnerBox : Option (List Char)

/-- `soup.select_one(f".b-menu-day.{meal_type}")`, returning the region's
flattened text. -/
def selectBox (soup : Soup) : MealSlot → Option (List Char)
  | MealSlot.lunch => soup.lunchBox
  | MealSlot.dinner => soup.dinnerBox

/-- `extract_meal_menu(soup, meal_type)` of src/menu_scraper.py. -/
def extract_meal_menu (soup : Soup) (meal : MealSlot) : List Char :=
  match selectBox soup meal with
  | some rawText => cleanCore rawText
  | none => "메뉴 없음".data

/-- The behaviour of one `fetch_restaurant_menu(articleNo, date_str)` call:
given the article number and the optional date, either a parsed document or
a raised exception (modelled as `Except.error` with the exception text).
Universally quantifying over a `Fetch` quantifies over every behaviour of
the network and of parsing. -/
abbrev Fetch := List Char → Option (List Char) → Except (List Char) Soup

/-- The configured source list `restaurants` of `fetch_ajou_meals`:
display name and article number. -/
def restaurants : List (List Char × List Char) :=
  [("기숙사식당".data, "63".data), ("교직원식당".data, "221904".data)]

/-- The sentinel map a failed source is replaced with:
`{"점심": "메뉴 조회 실패", "저녁": "메뉴 조회 실패"}`. -/
def failMeals : List (List Char × List Char) :=
  [("점심".data, "메뉴 조회 실패".data), ("저녁".data, "메뉴 조회 실패".data)]

/-- The inner `get_restaurant_meals(restaurant_info)` of
`fetch_ajou_meals`: fetch and extract both meals, catching any exception
and substituting the sentinel map for that source. -/
def get_restaurant_meals (fetch : Fetch) (dateStr : Option (List Char))
    (info : List Char × List Char) : List Char × List (List Char × List Char) :=
  match fetch info.2 dateStr with
  | Except.ok soup =>
    (info.1, [("점심".data, extract_meal_menu soup MealSlot.lunch),
              ("저녁".data, extract_meal_menu soup MealSlot.dinner)])
  | Except.error _ => (info.1, failMeals)

/-- `fetch_ajou_meals(date_str)` of src/menu_scraper.py: map
`get_restaurant_meals` over the configured sources (the thread pool's
`executor.map` preserves the input order and joins all results), then
collect into a dict, modelled as the association list in source order. -/
def fetch_ajou_meals (fetch : Fetch) (dateStr : Option (List Char)) :
    List (List Char × List (List Char × List Char)) :=
  restaurants.map (get_restaurant_meals fetch dateStr)

/-- The per-cell rendering block of `format_menu_for_kakao` (the body of
`for meal_time, menu in meals.items()` after the ` {meal_time}` header):
placeholder for an empty or `"메뉴 없음"` menu, otherwise the stripped,
non-empty lines of length over one, bulleted and joined. -/
def formatCell (menu : List Char) : List Char :=
  if menu ≠ [] ∧ menu ≠ "메뉴 없음".data then
    let menuItems := ((splitNl menu).map pyStrip).filter (fun i => i ≠ [])
    let formattedItems :=
      (menuItems.filter (fun i => 1 < i.length)).map (fun i => "• ".data ++ i)
    if formattedItems ≠ [] then joinNl formattedItems else "메뉴 정보 없음".data
  else "메뉴 없음".data

/-- One meal section of the message: `f" {meal_time}\n"`, the cell, then
`"\n\n"`. -/
def renderMeal (mealTime menu : List Char) : List Char :=
  " ".data ++ mealTime ++ "\n".data ++ formatCell menu ++ "\n\n".data

/-- One restaurant section of the message: `f" {restaurant}\n"`, twenty
`─` characters and a newline, the meal sections, then `"\n"`. -/
def renderRestaurant (name : List Char) (meals : List (List Char × List Char)) :
    List Char :=
  " ".data ++ name ++ "\n".data ++ List.replicate 20 '─' ++ "\n".data ++
    (meals.map (fun p => renderMeal p.1 p.2)).flatten ++ "\n".data

/-- The message built by the `try` block of `format_menu_for_kakao` from
the aggregated menus. -/
def renderDigest (dateStr : List Char)
    (allMenus : List (List Char × List (List Char × List Char))) : List Char :=
  " 아주대 식당 메뉴 (".data ++ dateStr ++ ")\n\n".data ++
    (allMenus.map (fun r => renderRestaurant r.1 r.2)).flatten ++
    " 맛있게 드세요!".data

/-- `format_menu_for_kakao(date_str)` of src/menu_scraper.py.  `today` is
`datetime.now().strftime("%Y-%m-%d")` (used when `date_str` is `None` or
empty, by Python truthiness); `attempt` is the outcome of the `try` block's
aggregation (`Except.error` models any exception raised inside the
fetch/normalize/format chain, caught by the outer `except`). -/
def format_menu_for_kakao (today : List Char) (dateStr : Option (List Char))
    (attempt : Except (List Char) (List (List Char × List (List Char × List Char)))) :
    List Char :=
  let d := match dateStr with
    | none => today
    | some s => if s = [] then today else s
  match attempt with
  | Except.ok allMenus => renderDigest d allMenus
  | Except.error e => " 메뉴 조회 중 오류가 발생했습니다: ".data ++ e

/-- The single cron job registration (`CronTrigger(hour=…, minute=…)` under
the job id `daily_menu_notification`). -/
structure CronJob where
  hour : Int
  minute : Int
deriving DecidableEq

/-- The scheduler state `MenuScheduler` owns: the registered job (if any),
the stored `self.hour` / `self.minute`, and whether the underlying
`BackgroundScheduler` is running. -/
structure SchedulerState where
  job : Option CronJob
  hour : Int
  minute : Int
  running : Bool
deriving DecidableEq

/-- `CronTrigger` accepts an hour field in 0–23 and a minute field in 0–59;
anything else raises `ValueError` at trigger construction. -/
def validCronTime (h m : Int) : Bool :=
  decide (0 ≤ h) && decide (h ≤ 23) && decide (0 ≤ m) && decide (m ≤ 59)

/-- `MenuScheduler.update_schedule(hour, minute)` of src/scheduler.py:
`remove_job` first (raising `JobLookupError` when no job is registered,
caught by the surrounding `except`, which returns `False`); then the
assignments `self.hour = hour; self.minute = minute`; then `add_job` with a
new `CronTrigger`, whose construction raises `ValueError` on an invalid
time-of-day — also caught, returning `False` with the state as mutated so
far. -/
def update_schedule (s : SchedulerState) (h m : Int) : Bool × SchedulerState :=
  match s.job with
  | none => (false, s)
  | some _ =>
    let s1 : SchedulerState := { s with job := none, hour := h, minute := m }
    if validCronTime h m then (true, { s1 with job := some ⟨h, m⟩ })
    else (false, s1)

/-- `MenuScheduler.is_running()` of src/scheduler.py. -/
def is_running (s : SchedulerState) : Bool := s.running

/-- What one firing of `_send_daily_menu` did. -/
inductive SendOutcome
  | sent (message : List Char)
  | sendFailed (message : List Char)
  | skippedNoToken
deriving DecidableEq

/-- `MenuScheduler._send_daily_menu()` of src/scheduler.py: format the
menu for today, read the stored access token (`none` models a missing
`.access_token` file, whose `FileNotFoundError` is caught and logged as a
warning), and post to the messaging API (`postOk` models whether the HTTP
response status was 200; a non-200 status is logged as an error).  Every
branch is wrapped in `try/except`, so the operation is total and never
touches the scheduler state. -/
def send_daily_menu (s : SchedulerState) (today : List Char)
    (attempt : Except (List Char) (List (List Char × List (List Char × List Char))))
    (token : Option (List Char)) (postOk : Bool) : SendOutcome × SchedulerState :=
  let menuMessage := format_menu_for_kakao today (some today) attempt
  match token with
  | none => (SendOutcome.skippedNoToken, s)
  | some _ =>
    (if postOk then SendOutcome.sent menuMessage else SendOutcome.sendFailed menuMessage, s)

/-- Decidable contiguous-occurrence test: `w` is an infix of the list. -/
def infB (w : List Char) : List Char → Bool
  | [] => w.isEmpty
  | c :: cs => w.isPrefixOf (c :: cs) || infB w cs

/-- A bracketed notice line: a `[` with the closing `안내]` later in the
same line. -/
def lineBr : List Char → Bool
  | [] => false
  | c :: cs => (c == '[' && infB noticeClose cs) || lineBr cs

/-- Some line of the text is a bracketed notice line. -/
def hasBrNoticeLine (l : List Char) : Bool := (splitNl l).any lineBr

/-- The text contains a `[` followed, anywhere after it (possibly on a
later line), by the closing `안내]`.  Any bracketed notice line gives such
an occurrence, so refuting `BadBracket` refutes `hasBrNoticeLine`. -/
def BadBracket (l : List Char) : Prop := ∃ u, ('[' :: u) <:+ l ∧ noticeClose <:+: u

/-- Two newlines separated only by non-newline whitespace: the shape every
blank-line run contains, and what `re.sub(r'\n\s*\n+', '\n', ·)` is
specified to eliminate. -/
def hasBlankRun : List Char → Bool
  | [] => false
  | c :: cs =>
    (c == '\n' && decide ((cs.dropWhile wsNotNl).head? = some '\n')) || hasBlankRun cs

/-- Some match of the pattern starts somewhere in the text. -/
def hasMatch (p : Pat) : List Char → Bool
  | [] => (matchPat p []).isSome
  | c :: cs => (matchPat p (c :: cs)).isSome || hasMatch p cs

/-- The `patterns_to_remove` list of `clean_menu_text`, in source order. -/
def patterns : List Pat :=
  [noticePat, dashOperPat, starOperPat, refMarkPat, pricePat, starsPat, beveragePat]

/-- A noise line: one of the removal patterns matches within the line. -/
def isNoiseLine (l : List Char) : Bool := patterns.any (fun p => hasMatch p l)

/-- The lines of the text no removal pattern matches within. -/
def nonNoiseLines (l : List Char) : List (List Char) :=
  (splitNl l).filter (fun ln => !(isNoiseLine ln))

/-- The per-cell rendering as the specification words it: placeholder for
an empty or `"메뉴 없음"` cell; otherwise split into lines, drop every line
of trimmed length at most one, bullet each survivor and join with newlines,
rendering `"메뉴 정보 없음"` when no line survives.  Stated from the spec
to be compared with `formatCell` (the code's two-stage filter). -/
def claimCell (menu : List Char) : List Char :=
  if menu = [] ∨ menu = "메뉴 없음".data then "메뉴 없음".data
  else
    let survivors := ((splitNl menu).map pyStrip).filter (fun i => 1 < i.length)
    if survivors = [] then "메뉴 정보 없음".data
    else joinNl (survivors.map (fun i => "• ".data ++ i))

end AjouLunch

namespace AjouLunch

open List

/-- Unfolding of the `String` wrapper around the normalizer core. -/
theorem clean_menu_text_data (s : String) : (clean_menu_text s).data = cleanCore s.data := by
  simp only [clean_menu_text]

/-- C5: normalization of the raw text
`"[휴무 안내] 오늘은 휴무입니다\n김치찌개\n밥"` via `clean_menu_text`
returns exactly `"김치찌개\n밥"`: the bracketed notice line (and the rest
of that line) is removed and the two menu lines survive unchanged. -/
theorem clean_holiday_notice_scenario :
    clean_menu_text "[휴무 안내] 오늘은 휴무입니다\n김치찌개\n밥" = "김치찌개\n밥" := by
  decide

/-- C1: `update_schedule` is not atomic on failure.  From a state with a
registered 12:00 trigger, `update_schedule(25, 0)` returns `False` (the
`CronTrigger` constructor rejects hour 25), yet the previously registered
trigger has already been removed and the stored hour/minute already
overwritten, so the scheduler is left in a partially-updated state, against
the specification's replace-or-nothing requirement. -/
theorem update_schedule_failure_partial_update :
    update_schedule ⟨some ⟨12, 0⟩, 12, 0, true⟩ 25 0 = (false, ⟨none, 25, 0, true⟩) ∧
    ¬ (∀ (s : SchedulerState) (h m : Int),
        (update_schedule s h m).1 = false → (update_schedule s h m).2 = s) := by
  refine ⟨by decide, fun hall => ?_⟩
  have h12 := hall ⟨some ⟨12, 0⟩, 12, 0, true⟩ 25 0 (by decide)
  exact absurd h12 (by decide)

/-- C8: when no delivery credential is available (`.access_token` absent),
`_send_daily_menu` completes with the logged-skip outcome for every
scheduler state, formatted message and HTTP behaviour, leaves the state
unchanged, and a subsequent `is_running` query reports exactly what it
reported before — in particular still `true` for a running scheduler. -/
theorem send_daily_menu_missing_token_skips :
    ∀ (s : SchedulerState) (today : List Char)
      (attempt : Except (List Char) (List (List Char × List (List Char × List Char))))
      (postOk : Bool),
      (send_daily_menu s today attempt none postOk).1 = SendOutcome.skippedNoToken ∧
      (send_daily_menu s today attempt none postOk).2 = s ∧
      (is_running s = true → is_running (send_daily_menu s today attempt none postOk).2 = true) := by
  intro s today attempt postOk
  exact ⟨rfl, rfl, fun h => h⟩

/-- The skip behaviour of C8 evaluated at a concrete running scheduler
state: the firing reports the skip outcome and the scheduler still reports
`running = true` afterwards. -/
theorem send_daily_menu_missing_token_skips_witness :
    (send_daily_menu ⟨some ⟨12, 0⟩, 12, 0, true⟩ "2025-09-10".data
        (Except.error "boom".data) none true).1 = SendOutcome.skippedNoToken ∧
    is_running (send_daily_menu ⟨some ⟨12, 0⟩, 12, 0, true⟩ "2025-09-10".data
        (Except.error "boom".data) none true).2 = true :=
  ⟨(send_daily_menu_missing_token_skips ⟨some ⟨12, 0⟩, 12, 0, true⟩ "2025-09-10".data
      (Except.error "boom".data) true).1,
   (send_daily_menu_missing_token_skips ⟨some ⟨12, 0⟩, 12, 0, true⟩ "2025-09-10".data
      (Except.error "boom".data) true).2.2 rfl⟩

/-- C2: for every date and every behaviour of the per-source fetches,
`fetch_ajou_meals` returns one entry per configured source, in source
order (so exactly two top-level entries with the two restaurant names);
a source whose fetch raises is substituted with the fixed sentinel map
`{"점심": "메뉴 조회 실패", "저녁": "메뉴 조회 실패"}`; and each source's
entry depends only on its own fetch, so one source's failure cannot alter
or remove its sibling's result. -/
theorem fetch_ajou_meals_per_source_isolation :
    ∀ (f g : Fetch) (dateStr : Option (List Char)),
      ((fetch_ajou_meals f dateStr).map Prod.fst =
        ["기숙사식당".data, "교직원식당".data]) ∧
      (∀ name art, (name, art) ∈ restaurants → ∀ e, f art dateStr = Except.error e →
        (name, failMeals) ∈ fetch_ajou_meals f dateStr) ∧
      (f "63".data dateStr = g "63".data dateStr →
        (fetch_ajou_meals f dateStr)[0]? = (fetch_ajou_meals g dateStr)[0]?) ∧
      (f "221904".data dateStr = g "221904".data dateStr →
        (fetch_ajou_meals f dateStr)[1]? = (fetch_ajou_meals g dateStr)[1]?) := by
  intro f g dateStr
  have hfst : ∀ (info : List Char × List Char),
      (get_restaurant_meals f dateStr info).1 = info.1 := by
    intro info
    unfold get_restaurant_meals
    cases f info.2 dateStr <;> rfl
  refine ⟨?_, ?_, ?_, ?_⟩
  · simp [fetch_ajou_meals, restaurants, hfst]
  · intro name art hmem e herr
    simp only [restaurants, List.mem_cons, List.mem_singleton] at hmem
    rcases hmem with h1 | h1 | h1
    · cases h1
      simp [fetch_ajou_meals, restaurants, get_restaurant_meals, herr]
    · cases h1
      simp [fetch_ajou_meals, restaurants, get_restaurant_meals, herr]
    · cases h1
  · intro hsame
    simp [fetch_ajou_meals, restaurants, get_restaurant_meals, hsame]
  · intro hsame
    simp [fetch_ajou_meals, restaurants, get_restaurant_meals, hsame]

/-- The failure substitution of C2 evaluated at a fetch that raises on
every source: both configured sources still appear, the failing first one
carrying the sentinel map. -/
theorem fetch_ajou_meals_per_source_isolation_witness :
    ((fetch_ajou_meals (fun _ _ => Except.error "boom".data) none).map Prod.fst =
      ["기숙사식당".data, "교직원식당".data]) ∧
    ("기숙사식당".data, failMeals) ∈
      fetch_ajou_meals (fun _ _ => Except.error "boom".data) none :=
  ⟨(fetch_ajou_meals_per_source_isolation (fun _ _ => Except.error "boom".data)
      (fun _ _ => Except.error "boom".data) none).1,
   (fetch_ajou_meals_per_source_isolation (fun _ _ => Except.error "boom".data)
      (fun _ _ => Except.error "boom".data) none).2.1
      "기숙사식당".data "63".data (by decide) "boom".data rfl⟩

/-- C10 counterexample: the sentinel `"메뉴 없음"` is not returned exactly
when no matching meal region exists.  A document whose lunch region's
flattened text is itself `"메뉴 없음"` makes `extract_meal_menu` return the
sentinel string even though the region exists, so the sentinel value does
not characterise a missing region. -/
theorem extract_meal_menu_sentinel_not_exclusive :
    extract_meal_menu ⟨some "메뉴 없음".data, none⟩ MealSlot.lunch = "메뉴 없음".data ∧
    selectBox ⟨some "메뉴 없음".data, none⟩ MealSlot.lunch ≠ none := by
  decide

/-- C10 (amended): `extract_meal_menu` returns the sentinel `"메뉴 없음"`
whenever no matching meal region exists, and otherwise the result of
applying the normalizer to the region's flattened text (which may itself
coincide with the sentinel string); consequently every value the
aggregator stores is the fixed fetch-failure sentinel or a
`clean_menu_text`-normalized text. -/
theorem extract_meal_menu_normalizes :
    ∀ (soup : Soup) (meal : MealSlot),
      (selectBox soup meal = none → extract_meal_menu soup meal = "메뉴 없음".data) ∧
      (∀ rawText, selectBox soup meal = some rawText →
        extract_meal_menu soup meal = (clean_menu_text ⟨rawText⟩).data) ∧
      (∀ (f : Fetch) (dateStr : Option (List Char)) entry mealName v,
        entry ∈ fetch_ajou_meals f dateStr → (mealName, v) ∈ entry.2 →
        v = "메뉴 조회 실패".data ∨ ∃ rawOrSentinel, v = cleanCore rawOrSentinel) := by
  intro soup meal
  refine ⟨?_, ?_, ?_⟩
  · intro hnone
    simp [extract_meal_menu, hnone]
  · intro rawText hsome
    simp [extract_meal_menu, hsome, clean_menu_text]
  · intro f dateStr entry mealName v hentry hmem
    have hval : ∀ (soup2 : Soup) (meal2 : MealSlot),
        ∃ r, extract_meal_menu soup2 meal2 = cleanCore r := by
      intro soup2 meal2
      unfold extract_meal_menu
      cases hsel : selectBox soup2 meal2 with
      | some rawText => exact ⟨rawText, rfl⟩
      | none => exact ⟨"메뉴 없음".data, by decide⟩
    simp only [fetch_ajou_meals, restaurants, List.map_cons, List.map_nil,
      List.mem_cons, List.mem_singleton] at hentry
    rcases hentry with h1 | h1 | h1
    · subst h1
      unfold get_restaurant_meals at hmem
      cases hf : f ("63".data) dateStr with
      | ok soup2 =>
        rw [hf] at hmem
        simp only [List.mem_cons, List.not_mem_nil, or_false, Prod.mk.injEq] at hmem
        rcases hmem with ⟨_, hv⟩ | ⟨_, hv⟩
        · exact Or.inr (by rw [hv]; exact hval soup2 MealSlot.lunch)
        · exact Or.inr (by rw [hv]; exact hval soup2 MealSlot.dinner)
      | error e =>
        rw [hf] at hmem
        simp only [failMeals, List.mem_cons, List.not_mem_nil, or_false,
          Prod.mk.injEq] at hmem
        rcases hmem with ⟨_, hv⟩ | ⟨_, hv⟩ <;> exact Or.inl hv
    · subst h1
      unfold get_restaurant_meals at hmem
      cases hf : f ("221904".data) dateStr with
      | ok soup2 =>
        rw [hf] at hmem
        simp only [List.mem_cons, List.not_mem_nil, or_false, Prod.mk.injEq] at hmem
        rcases hmem with ⟨_, hv⟩ | ⟨_, hv⟩
        · exact Or.inr (by rw [hv]; exact hval soup2 MealSlot.lunch)
        · exact Or.inr (by rw [hv]; exact hval soup2 MealSlot.dinner)
      | error e =>
        rw [hf] at hmem
        simp only [failMeals, List.mem_cons, List.not_mem_nil, or_false,
          Prod.mk.injEq] at hmem
        rcases hmem with ⟨_, hv⟩ | ⟨_, hv⟩ <;> exact Or.inl hv
    · cases h1

/-- The missing-region branch of C10 evaluated at a document with no
regions at all: both slots yield the sentinel. -/
theorem extract_meal_menu_normalizes_witness :
    extract_meal_menu ⟨none, none⟩ MealSlot.lunch = "메뉴 없음".data ∧
    extract_meal_menu ⟨none, none⟩ MealSlot.dinner = "메뉴 없음".data :=
  ⟨(extract_meal_menu_normalizes ⟨none, none⟩ MealSlot.lunch).1 rfl,
   (extract_meal_menu_normalizes ⟨none, none⟩ MealSlot.dinner).1 rfl⟩

/-- The join of a non-empty first chunk starts with that chunk's first
character. -/
theorem joinNl_head (x : List Char) (xs : List (List Char)) (hx : x ≠ []) :
    (joinNl (x :: xs)).head? = x.head? := by
  cases xs with
  | nil => rfl
  | cons y ys =>
    show (x ++ '\n' :: joinNl (y :: ys)).head? = x.head?
    cases x with
    | nil => exact absurd rfl hx
    | cons a l => rfl

/-- C9: in the formatter's per-cell rendering, only the empty string and
the exact string `"메뉴 없음"` produce the placeholder; the fetch-failure
sentinel `"메뉴 조회 실패"` is rendered as an ordinary bulleted menu item
`"• 메뉴 조회 실패"`. -/
theorem formatCell_placeholder_iff :
    (∀ menu : List Char,
      formatCell menu = "메뉴 없음".data ↔ (menu = [] ∨ menu = "메뉴 없음".data)) ∧
    formatCell "메뉴 조회 실패".data = "• 메뉴 조회 실패".data := by
  constructor
  · intro menu
    constructor
    · intro h
      by_contra hne
      push_neg at hne
      obtain ⟨h1, h2⟩ := hne
      simp only [formatCell, if_pos (And.intro h1 h2)] at h
      cases hfil : (((splitNl menu).map pyStrip).filter (fun i => i ≠ [])).filter
          (fun i => 1 < i.length) with
      | nil =>
        rw [hfil] at h
        exact absurd h (by decide)
      | cons i is =>
        rw [hfil] at h
        simp only [List.map_cons, ne_eq, reduceCtorEq, not_false_eq_true, if_true] at h
        have hhead := congrArg List.head? h
        rw [joinNl_head ("• ".data ++ i) _ (by simp)] at hhead
        have hbul : ("• ".data ++ i).head? = some '•' := rfl
        rw [hbul] at hhead
        exact absurd hhead (by decide)
    · rintro (rfl | rfl) <;> decide
  · decide

/-- C7: the exclusion of lines of trimmed length at most one is owned by
the formatter, not the normalizer.  The per-cell rendering of
`format_menu_for_kakao` equals the specification's description (placeholder
for empty or `"메뉴 없음"` cells; otherwise trim lines, drop those of
length at most one, bullet and join the survivors, with `"메뉴 정보 없음"`
when none survive); and on a menu with a one-character line the normalizer
preserves the line while the formatter drops it. -/
theorem short_line_exclusion_owned_by_formatter :
    (∀ menu : List Char, formatCell menu = claimCell menu) ∧
    clean_menu_text "김치찌개\nA\n비빔밥" = "김치찌개\nA\n비빔밥" ∧
    formatCell "김치찌개\nA\n비빔밥".data = "• 김치찌개\n• 비빔밥".data := by
  refine ⟨?_, by decide, by decide⟩
  intro menu
  by_cases hp : menu = [] ∨ menu = "메뉴 없음".data
  · have hn : ¬ (menu ≠ [] ∧ menu ≠ "메뉴 없음".data) := by tauto
    simp only [formatCell, claimCell, if_neg hn, if_pos hp]
  · have hy : menu ≠ [] ∧ menu ≠ "메뉴 없음".data := by tauto
    simp only [formatCell, claimCell, if_pos hy, if_neg hp]
    have hfilters : (((splitNl menu).map pyStrip).filter (fun i => i ≠ [])).filter
          (fun i => 1 < i.length)
        = ((splitNl menu).map pyStrip).filter (fun i => 1 < i.length) := by
      rw [List.filter_filter]
      apply List.filter_congr
      intro a _
      by_cases ha : a = []
      · subst ha
        simp
      · simp [ha]
    rw [hfilters]
    cases hs : ((splitNl menu).map pyStrip).filter (fun i => 1 < i.length) with
    | nil => simp
    | cons i is => simp

/-- The digest built by the `try` block always starts with the header's
leading blank, so it is never empty. -/
theorem renderDigest_head (d : List Char)
    (m : List (List Char × List (List Char × List Char))) :
    (renderDigest d m).head? = some ' ' := rfl

/-- C3: `format_menu_for_kakao` is total — for every date string and every
behaviour of the fetch/normalize chain it returns a (non-empty) string —
and whenever the chain raises, the exception is caught at the outer
boundary and the returned text embeds the error-indicating phrase
`"오류가 발생했습니다"`. -/
theorem format_menu_for_kakao_total :
    ∀ (today : List Char) (dateStr : Option (List Char))
      (attempt : Except (List Char) (List (List Char × List (List Char × List Char)))),
      format_menu_for_kakao today dateStr attempt ≠ [] ∧
      (∀ e, attempt = Except.error e →
        "오류가 발생했습니다".data <:+: format_menu_for_kakao today dateStr attempt) := by
  intro today dateStr attempt
  constructor
  · cases attempt with
    | ok allMenus =>
      intro hcontra
      have hhead : (format_menu_for_kakao today dateStr (Except.ok allMenus)).head?
          = some ' ' := renderDigest_head _ allMenus
      rw [hcontra] at hhead
      cases hhead
    | error e =>
      intro hcontra
      have hhead : (format_menu_for_kakao today dateStr (Except.error e)).head?
          = some ' ' := rfl
      rw [hcontra] at hhead
      cases hhead
  · intro e he
    subst he
    show "오류가 발생했습니다".data <:+: (" 메뉴 조회 중 오류가 발생했습니다: ".data ++ e)
    have hsplit : " 메뉴 조회 중 오류가 발생했습니다: ".data
        = " 메뉴 조회 중 ".data ++ "오류가 발생했습니다".data ++ ": ".data := by decide
    rw [hsplit]
    exact ⟨" 메뉴 조회 중 ".data, ": ".data ++ e, by simp⟩

/-- The error-embedding contract of C3 evaluated at a concrete raised
exception: the result is non-empty and carries the error phrase. -/
theorem format_menu_for_kakao_total_witness :
    format_menu_for_kakao "2025-09-10".data none (Except.error "socket timeout".data) ≠ [] ∧
    "오류가 발생했습니다".data <:+:
      format_menu_for_kakao "2025-09-10".data none (Except.error "socket timeout".data) :=
  ⟨(format_menu_for_kakao_total "2025-09-10".data none
      (Except.error "socket timeout".data)).1,
   (format_menu_for_kakao_total "2025-09-10".data none
      (Except.error "socket timeout".data)).2 "socket timeout".data rfl⟩

/-- The first element surviving a `dropWhile` fails the dropped predicate. -/
theorem head_dropWhile_not (p : Char → Bool) :
    ∀ (l : List Char) (c : Char), (l.dropWhile p).head? = some c → p c = false := by
  intro l
  induction l with
  | nil => intro c h; cases h
  | cons a l ih =>
    intro c h
    rw [List.dropWhile_cons] at h
    by_cases hp : p a = true
    · rw [if_pos hp] at h
      exact ih c h
    · rw [if_neg hp] at h
      injection h with h2
      subst h2
      cases hq : p a with
      | false => rfl
      | true => exact absurd hq hp

/-- The trailing lazy match leaves a suffix of its input. -/
theorem toEOL_suffix : ∀ cs : List Char, toEOL cs <:+ cs := by
  intro cs
  induction cs with
  | nil => exact List.suffix_refl []
  | cons c cs ih =>
    show (if c = '\n' then c :: cs else toEOL cs) <:+ c :: cs
    by_cases h : c = '\n'
    · rw [if_pos h]
    · rw [if_neg h]
      exact ih.trans (List.suffix_cons c cs)

/-- The trailing lazy match stops just before a newline or at the end. -/
theorem toEOL_shape : ∀ cs : List Char, toEOL cs = [] ∨ ∃ r, toEOL cs = '\n' :: r := by
  intro cs
  induction cs with
  | nil => exact Or.inl rfl
  | cons c cs ih =>
    by_cases h : c = '\n'
    · subst h
      exact Or.inr ⟨cs, by simp [toEOL]⟩
    · rw [show toEOL (c :: cs) = toEOL cs from by simp [toEOL, h]]
      exact ih

/-- A successful lazy literal search leaves a suffix of its input. -/
theorem findLit_suffix (w : List Char) :
    ∀ cs r, findLit w cs = some r → r <:+ cs := by
  intro cs
  induction cs with
  | nil =>
    intro r h
    show r <:+ []
    by_cases hw : w.isEmpty
    · rw [show findLit w [] = some [] from by simp [findLit, hw]] at h
      injection h with h2
      subst h2
      exact List.suffix_refl []
    · rw [show findLit w [] = none from by simp [findLit, hw]] at h
      cases h
  | cons c cs ih =>
    intro r h
    show r <:+ c :: cs
    by_cases hp : w.isPrefixOf (c :: cs) = true
    · rw [show findLit w (c :: cs) = some ((c :: cs).drop w.length) from by
        simp [findLit, hp]] at h
      injection h with h2
      subst h2
      exact List.drop_suffix w.length (c :: cs)
    · rw [show findLit w (c :: cs) = findLit w cs from by simp [findLit, hp]] at h
      exact (ih r h).trans (List.suffix_cons c cs)

/-- Contiguous occurrence as a prefix of some `drop`. -/
theorem infix_iff_prefix_drop (w l : List Char) : w <:+: l ↔ ∃ k, w <+: l.drop k := by
  constructor
  · rintro ⟨s, t, rfl⟩
    refine ⟨s.length, ?_⟩
    rw [List.append_assoc, List.drop_left]
    exact ⟨t, rfl⟩
  · rintro ⟨k, hk⟩
    exact hk.isInfix.trans (List.drop_suffix k l).isInfix

/-- When the literal occurs somewhere, `findLit` finds it. -/
theorem findLit_found (w : List Char) :
    ∀ cs, (∃ k, w <+: cs.drop k) → findLit w cs ≠ none := by
  intro cs
  induction cs with
  | nil =>
    rintro ⟨k, hk⟩
    rw [List.drop_nil] at hk
    have hw : w = [] := List.prefix_nil.mp hk
    subst hw
    simp [findLit]
  | cons c cs ih =>
    rintro ⟨k, hk⟩
    by_cases hp : w.isPrefixOf (c :: cs) = true
    · simp [findLit, hp]
    · rw [show findLit w (c :: cs) = findLit w cs from by simp [findLit, hp]]
      apply ih
      cases k with
      | zero =>
        rw [List.drop_zero] at hk
        exact absurd (List.isPrefixOf_iff_prefix.mpr hk) hp
      | succ k => exact ⟨k, hk⟩

/-- An infix survives prepending one element. -/
theorem infixConsOf {t l : List Char} (c : Char) (h : t <:+: l) : t <:+: c :: l := by
  obtain ⟨s, u, hu⟩ := h
  exact ⟨c :: s, u, by rw [List.cons_append, List.cons_append, hu]⟩

/-- A prefix extends through a shared head. -/
theorem prefixConsOf {t l : List Char} (c : Char) (h : t <+: l) : c :: t <+: c :: l := by
  obtain ⟨u, hu⟩ := h
  exact ⟨u, by rw [List.cons_append, hu]⟩

/-- An infix of a non-empty list is a prefix of it or an infix of its
tail. -/
theorem infix_cons_elim {t : List Char} {a : Char} {l : List Char}
    (h : t <:+: a :: l) : t <+: a :: l ∨ t <:+: l := by
  obtain ⟨s, u, hu⟩ := h
  cases s with
  | nil => exact Or.inl ⟨u, by simpa using hu⟩
  | cons b s2 =>
    injection hu with h1 h2
    exact Or.inr ⟨s2, u, h2⟩

/-- Structure of a successful pattern match: the leading literal was a
prefix, the remainder is a suffix of the text past the literal, and the
remainder starts at a newline or at the end (the trailing lookahead). -/
theorem matchPat_spec (p : Pat) (cs r : List Char) (h : matchPat p cs = some r) :
    p.lit <+: cs ∧ r <:+ cs.drop p.lit.length ∧ (r = [] ∨ ∃ r2, r = '\n' :: r2) := by
  simp only [matchPat] at h
  by_cases hpre : p.lit.isPrefixOf cs = true
  · rw [if_pos hpre] at h
    have hpre2 : p.lit <+: cs := List.isPrefixOf_iff_prefix.mp hpre
    cases hm : p.mid with
    | none =>
      rw [hm] at h
      have h2 : some (toEOL (cs.drop p.lit.length)) = some r := h
      injection h2 with h3
      subst h3
      exact ⟨hpre2, toEOL_suffix _, toEOL_shape _⟩
    | some w =>
      rw [hm] at h
      have h2 : (match findLit w (cs.drop p.lit.length) with
        | some r1 => some (toEOL r1)
        | none => none) = some r := h
      cases hf : findLit w (cs.drop p.lit.length) with
      | none => rw [hf] at h2; cases h2
      | some r1 =>
        rw [hf] at h2
        have h3 : some (toEOL r1) = some r := h2
        injection h3 with h4
        subst h4
        exact ⟨hpre2, (toEOL_suffix r1).trans (findLit_suffix w _ r1 hf), toEOL_shape r1⟩
  · rw [if_neg hpre] at h
    cases h

/-- The remainder of a match is a suffix of the scanned text. -/
theorem matchPat_suffix (p : Pat) (cs r : List Char) (h : matchPat p cs = some r) :
    r <:+ cs :=
  ((matchPat_spec p cs r h).2.1).trans (List.drop_suffix _ cs)

/-- Every match consumes at least one character. -/
theorem matchPat_lt (p : Pat) (cs r : List Char) (h : matchPat p cs = some r) :
    r.length < cs.length := by
  obtain ⟨hpre, hsuf, _⟩ := matchPat_spec p cs r h
  have h1 : r.length ≤ (cs.drop p.lit.length).length := hsuf.length_le
  have h2 : p.lit.length ≤ cs.length := hpre.length_le
  have h3 : 0 < p.lit.length := by simp [Pat.lit]
  rw [List.length_drop] at h1
  omega

/-- The fuelled scan is fuel-irrelevant once the fuel covers the text
length, since every match consumes at least one character. -/
theorem subAllF_fuel (p : Pat) :
    ∀ (f g : Nat) (cs : List Char), cs.length ≤ f → cs.length ≤ g →
      subAllF p f cs = subAllF p g cs := by
  intro f
  induction f with
  | zero =>
    intro g cs hf _
    have hnil : cs = [] := List.length_eq_zero.mp (Nat.le_zero.mp hf)
    subst hnil
    cases g <;> rfl
  | succ f ih =>
    intro g cs hf hg
    cases cs with
    | nil => cases g <;> rfl
    | cons c cs =>
      cases g with
      | zero => simp at hg
      | succ g =>
        cases hm : matchPat p (c :: cs) with
        | some rest =>
          have hlt := matchPat_lt p (c :: cs) rest hm
          simp only [subAllF, hm]
          exact ih g rest (by simp at hf hlt ⊢; omega) (by simp at hg hlt ⊢; omega)
        | none =>
          simp only [subAllF, hm]
          rw [ih g cs (by simp at hf ⊢; omega) (by simp at hg ⊢; omega)]

/-- Unfolding `subAll` at a position where the pattern matches: the match
is deleted and scanning resumes after it. -/
theorem subAll_cons_match (p : Pat) (c : Char) (cs rest : List Char)
    (hm : matchPat p (c :: cs) = some rest) :
    subAll p (c :: cs) = subAll p rest := by
  have hlt := matchPat_lt p (c :: cs) rest hm
  show subAllF p (c :: cs).length (c :: cs) = subAllF p rest.length rest
  simp only [List.length_cons, subAllF, hm]
  exact subAllF_fuel p cs.length rest.length rest (by simp at hlt; omega) le_rfl

/-- Unfolding `subAll` at a position where the pattern does not match. -/
theorem subAll_cons_none (p : Pat) (c : Char) (cs : List Char)
    (hm : matchPat p (c :: cs) = none) :
    subAll p (c :: cs) = c :: subAll p cs := by
  show subAllF p (c :: cs).length (c :: cs) = c :: subAllF p cs.length cs
  simp only [List.length_cons, subAllF, hm]

/-- Deleting matches yields a sublist: surviving characters keep their
original relative order. -/
theorem subAllF_sublist (p : Pat) :
    ∀ (f : Nat) (cs : List Char), List.Sublist (subAllF p f cs) cs := by
  intro f
  induction f with
  | zero => intro cs; exact List.Sublist.refl cs
  | succ f ih =>
    intro cs
    cases cs with
    | nil => exact List.Sublist.refl []
    | cons c cs =>
      cases hm : matchPat p (c :: cs) with
      | some rest =>
        simp only [subAllF, hm]
        exact (ih rest).trans (matchPat_suffix p (c :: cs) rest hm).sublist
      | none =>
        simp only [subAllF, hm]
        exact (ih cs).cons₂ c

/-- A newline-free prefix of the scan output was already a prefix of the
input: a deleted region always ends just before a newline, so the output
resumes at a newline after any deletion. -/
theorem subAllF_prefix_pres (p : Pat) :
    ∀ (f : Nat) (cs t : List Char), '\n' ∉ t → t <+: subAllF p f cs → t <+: cs := by
  intro f
  induction f with
  | zero => intro cs t _ h; exact h
  | succ f ih =>
    intro cs t hnl h
    cases cs with
    | nil => exact h
    | cons c cs =>
      cases hm : matchPat p (c :: cs) with
      | some rest =>
        rw [show subAllF p (f + 1) (c :: cs) = subAllF p f rest from by
          simp only [subAllF, hm]] at h
        have ht : t <+: rest := ih rest t hnl h
        rcases (matchPat_spec p (c :: cs) rest hm).2.2 with hr | ⟨r2, hr⟩
        · subst hr
          have : t = [] := List.prefix_nil.mp ht
          subst this
          exact List.nil_prefix
        · subst hr
          cases t with
          | nil => exact List.nil_prefix
          | cons a t2 =>
            obtain ⟨u, hu⟩ := ht
            injection hu with h1 _
            subst h1
            exact absurd (List.mem_cons_self '\n' t2) hnl
      | none =>
        rw [show subAllF p (f + 1) (c :: cs) = c :: subAllF p f cs from by
          simp only [subAllF, hm]] at h
        cases t with
        | nil => exact List.nil_prefix
        | cons a t2 =>
          obtain ⟨u, hu⟩ := h
          injection hu with h1 h2
          subst h1
          have ht2 : t2 <+: subAllF p f cs := ⟨u, h2⟩
          exact prefixConsOf a (ih cs t2 (fun hmem => hnl (List.mem_cons_of_mem a hmem)) ht2)

/-- A newline-free infix of the scan output was already an infix of the
input: deletions cannot glue text across a removed region, because the
region always ends just before a surviving newline. -/
theorem subAllF_infix_pres (p : Pat) :
    ∀ (f : Nat) (cs t : List Char), '\n' ∉ t → t <:+: subAllF p f cs → t <:+: cs := by
  intro f
  induction f with
  | zero => intro cs t _ h; exact h
  | succ f ih =>
    intro cs t hnl h
    cases cs with
    | nil => exact h
    | cons c cs =>
      cases hm : matchPat p (c :: cs) with
      | some rest =>
        rw [show subAllF p (f + 1) (c :: cs) = subAllF p f rest from by
          simp only [subAllF, hm]] at h
        exact (ih rest t hnl h).trans (matchPat_suffix p (c :: cs) rest hm).isInfix
      | none =>
        rw [show subAllF p (f + 1) (c :: cs) = c :: subAllF p f cs from by
          simp only [subAllF, hm]] at h
        rcases infix_cons_elim h with hp | hi
        · cases t with
          | nil => exact ⟨[], c :: cs, rfl⟩
          | cons a t2 =>
            obtain ⟨u, hu⟩ := hp
            injection hu with h1 h2
            subst h1
            have ht2 : t2 <+: subAllF p f cs := ⟨u, h2⟩
            have := subAllF_prefix_pres p f cs t2
              (fun hmem => hnl (List.mem_cons_of_mem a hmem)) ht2
            exact (prefixConsOf a this).isInfix
        · exact infixConsOf c (ih cs t hnl hi)

/-- A bracket-then-`안내]` occurrence in part of a list occurs in any list
having it as a suffix. -/
theorem badBracket_of_suffix {m l : List Char} (hb : BadBracket m) (h : m <:+ l) :
    BadBracket l := by
  obtain ⟨u, hsuf, hinfix⟩ := hb
  exact ⟨u, hsuf.trans h, hinfix⟩

/-- A bracket-then-`안내]` occurrence is preserved into any list having the
occurrence's carrier as an infix. -/
theorem badBracket_of_isInfix {m l : List Char} (hb : BadBracket m) (h : m <:+: l) :
    BadBracket l := by
  obtain ⟨u, ⟨a, ha⟩, hinfix⟩ := hb
  obtain ⟨s, t, ht⟩ := h
  refine ⟨u ++ t, ⟨s ++ a, ?_⟩, ?_⟩
  · rw [← ht, ← ha]
    simp
  · exact hinfix.trans (List.prefix_append u t).isInfix

/-- Deleting matches of any removal pattern cannot create a new
bracket-then-`안내]` occurrence. -/
theorem subAllF_badBracket_pres (p : Pat) :
    ∀ (f : Nat) (cs : List Char), BadBracket (subAllF p f cs) → BadBracket cs := by
  intro f
  induction f with
  | zero => intro cs h; exact h
  | succ f ih =>
    intro cs h
    cases cs with
    | nil => exact h
    | cons c cs =>
      cases hm : matchPat p (c :: cs) with
      | some rest =>
        rw [show subAllF p (f + 1) (c :: cs) = subAllF p f rest from by
          simp only [subAllF, hm]] at h
        exact badBracket_of_suffix (ih rest h) (matchPat_suffix p (c :: cs) rest hm)
      | none =>
        rw [show subAllF p (f + 1) (c :: cs) = c :: subAllF p f cs from by
          simp only [subAllF, hm]] at h
        obtain ⟨u, hsuf, hinfix⟩ := h
        rcases List.suffix_cons_iff.mp hsuf with heq2 | hsuf2
        · injection heq2 with h1 h2
          subst h1
          have hni : noticeClose <:+: cs :=
            subAllF_infix_pres p f cs noticeClose (by decide) (h2 ▸ hinfix)
          exact ⟨cs, List.suffix_refl _, hni⟩
        · exact badBracket_of_suffix (ih cs ⟨u, hsuf2, hinfix⟩) (List.suffix_cons c cs)

/-- After the bracketed-notice substitution has run, no `[` is followed by
`안내]` anywhere in the text: a surviving `[` had no closing `안내]` after
it at scan time, and later surviving text is a subset of that. -/
theorem subAllF_noticePat_clears :
    ∀ (f : Nat) (cs : List Char), cs.length ≤ f →
      ¬ BadBracket (subAllF noticePat f cs) := by
  intro f
  induction f with
  | zero =>
    intro cs hf h
    have hnil : cs = [] := List.length_eq_zero.mp (Nat.le_zero.mp hf)
    subst hnil
    obtain ⟨u, hsuf, _⟩ := h
    have := hsuf.length_le
    simp [subAllF] at this
  | succ f ih =>
    intro cs hf h
    cases cs with
    | nil =>
      rw [show subAllF noticePat (f + 1) ([] : List Char) = [] from rfl] at h
      obtain ⟨u, hsuf, _⟩ := h
      have := hsuf.length_le
      simp at this
    | cons c cs =>
      cases hm : matchPat noticePat (c :: cs) with
      | some rest =>
        rw [show subAllF noticePat (f + 1) (c :: cs) = subAllF noticePat f rest from by
          simp only [subAllF, hm]] at h
        have hlt := matchPat_lt noticePat (c :: cs) rest hm
        exact ih rest (by simp at hf hlt ⊢; omega) h
      | none =>
        rw [show subAllF noticePat (f + 1) (c :: cs) = c :: subAllF noticePat f cs from by
          simp only [subAllF, hm]] at h
        obtain ⟨u, hsuf, hinfix⟩ := h
        rcases List.suffix_cons_iff.mp hsuf with heq2 | hsuf2
        · injection heq2 with h1 h2
          subst h1
          have hni : noticeClose <:+: cs :=
            subAllF_infix_pres noticePat f cs noticeClose (by decide) (h2 ▸ hinfix)
          have hfound : findLit noticeClose cs ≠ none :=
            findLit_found noticeClose cs ((infix_iff_prefix_drop _ _).mp hni)
          apply hfound
          simp only [matchPat, noticePat] at hm
          rw [if_pos (by simp [Pat.lit, List.isPrefixOf])] at hm
          cases hfl : findLit noticeClose cs with
          | none => rfl
          | some r1 =>
            rw [show Pat.lit ⟨'[', [], some noticeClose⟩ = ['['] from rfl] at hm
            rw [show (('[' :: cs).drop (['['] : List Char).length) = cs from rfl] at hm
            rw [hfl] at hm
            cases hm
        · exact ih cs (by simp at hf ⊢; omega) ⟨u, hsuf2, hinfix⟩

/-- The blank-run skip returns a suffix. -/
theorem nlSkip_suffix : ∀ cs r, nlSkip cs = some r → r <:+ cs := by
  intro cs
  induction cs with
  | nil => intro r h; cases h
  | cons c cs ih =>
    intro r h
    simp only [nlSkip] at h
    by_cases hws : isPySpace c = true
    · rw [if_pos hws] at h
      cases hm : nlSkip cs with
      | some r2 =>
        rw [hm] at h
        injection h with h2
        rw [← h2]
        exact (ih r2 hm).trans (List.suffix_cons c cs)
      | none =>
        rw [hm] at h
        by_cases hc : c = '\n'
        · rw [if_pos hc] at h
          injection h with h2
          subst h2
          exact List.suffix_cons c cs
        · rw [if_neg hc] at h
          cases h
    · rw [if_neg hws] at h
      cases h

/-- The blank-run skip consumes at least one character. -/
theorem nlSkip_lt : ∀ cs r, nlSkip cs = some r → r.length < cs.length := by
  intro cs
  induction cs with
  | nil => intro r h; cases h
  | cons c cs ih =>
    intro r h
    simp only [nlSkip] at h
    by_cases hws : isPySpace c = true
    · rw [if_pos hws] at h
      cases hm : nlSkip cs with
      | some r2 =>
        rw [hm] at h
        injection h with h2
        rw [← h2]
        have := ih r2 hm
        simp only [List.length_cons]
        omega
      | none =>
        rw [hm] at h
        by_cases hc : c = '\n'
        · rw [if_pos hc] at h
          injection h with h2
          subst h2
          simp
        · rw [if_neg hc] at h
          cases h
    · rw [if_neg hws] at h
      cases h

/-- After skipping to the last newline of the leading whitespace run, the
remaining leading whitespace holds no further newline. -/
theorem nlSkip_none_after : ∀ cs r, nlSkip cs = some r → nlSkip r = none := by
  intro cs
  induction cs with
  | nil => intro r h; cases h
  | cons c cs ih =>
    intro r h
    simp only [nlSkip] at h
    by_cases hws : isPySpace c = true
    · rw [if_pos hws] at h
      cases hm : nlSkip cs with
      | some r2 =>
        rw [hm] at h
        injection h with h2
        rw [← h2]
        exact ih r2 hm
      | none =>
        rw [hm] at h
        by_cases hc : c = '\n'
        · rw [if_pos hc] at h
          injection h with h2
          subst h2
          exact hm
        · rw [if_neg hc] at h
          cases h
    · rw [if_neg hws] at h
      cases h

/-- Collapsing blank runs yields a sublist. -/
theorem collapseF_sublist :
    ∀ (f : Nat) (cs : List Char), List.Sublist (collapseF f cs) cs := by
  intro f
  induction f with
  | zero => intro cs; exact List.Sublist.refl cs
  | succ f ih =>
    intro cs
    cases cs with
    | nil => exact List.Sublist.refl []
    | cons c cs =>
      by_cases hc : c = '\n'
      · subst hc
        cases hm : nlSkip cs with
        | some r =>
          rw [show collapseF (f + 1) ('\n' :: cs) = '\n' :: collapseF f r from by
            simp only [collapseF, hm, if_pos]]
          exact ((ih r).trans (nlSkip_suffix cs r hm).sublist).cons₂ '\n'
        | none =>
          rw [show collapseF (f + 1) ('\n' :: cs) = '\n' :: collapseF f cs from by
            simp only [collapseF, hm, if_pos]]
          exact (ih cs).cons₂ '\n'
      · rw [show collapseF (f + 1) (c :: cs) = c :: collapseF f cs from by
          simp only [collapseF, if_neg hc]]
        exact (ih cs).cons₂ c

/-- A newline-free prefix of the collapsed text is a prefix of the
original text. -/
theorem collapseF_prefix_pres :
    ∀ (f : Nat) (cs t : List Char), '\n' ∉ t → t <+: collapseF f cs → t <+: cs := by
  intro f
  induction f with
  | zero => intro cs t _ h; exact h
  | succ f ih =>
    intro cs t hnl h
    cases cs with
    | nil => exact h
    | cons c cs =>
      by_cases hc : c = '\n'
      · subst hc
        cases t with
        | nil => exact List.nil_prefix
        | cons a t2 =>
          have hhead : a = '\n' := by
            cases hm : nlSkip cs with
            | some r =>
              rw [show collapseF (f + 1) ('\n' :: cs) = '\n' :: collapseF f r from by
                simp only [collapseF, hm, if_pos]] at h
              obtain ⟨u, hu⟩ := h
              injection hu
            | none =>
              rw [show collapseF (f + 1) ('\n' :: cs) = '\n' :: collapseF f cs from by
                simp only [collapseF, hm, if_pos]] at h
              obtain ⟨u, hu⟩ := h
              injection hu
          subst hhead
          exact absurd (List.mem_cons_self '\n' t2) hnl
      · rw [show collapseF (f + 1) (c :: cs) = c :: collapseF f cs from by
          simp only [collapseF, if_neg hc]] at h
        cases t with
        | nil => exact List.nil_prefix
        | cons a t2 =>
          obtain ⟨u, hu⟩ := h
          injection hu with h1 h2
          subst h1
          exact prefixConsOf a
            (ih cs t2 (fun hmem => hnl (List.mem_cons_of_mem a hmem)) ⟨u, h2⟩)

/-- A newline-free infix of the collapsed text is an infix of the original
text: replaced blank regions sit between surviving newlines. -/
theorem collapseF_infix_pres :
    ∀ (f : Nat) (cs t : List Char), '\n' ∉ t → t <:+: collapseF f cs → t <:+: cs := by
  intro f
  induction f with
  | zero => intro cs t _ h; exact h
  | succ f ih =>
    intro cs t hnl h
    cases cs with
    | nil => exact h
    | cons c cs =>
      by_cases hc : c = '\n'
      · subst hc
        cases hm : nlSkip cs with
        | some r =>
          rw [show collapseF (f + 1) ('\n' :: cs) = '\n' :: collapseF f r from by
            simp only [collapseF, hm, if_pos]] at h
          rcases infix_cons_elim h with hp | hi
          · cases t with
            | nil => exact ⟨[], '\n' :: cs, rfl⟩
            | cons a t2 =>
              obtain ⟨u, hu⟩ := hp
              injection hu with h1 _
              subst h1
              exact absurd (List.mem_cons_self '\n' t2) hnl
          · exact infixConsOf '\n'
              ((ih r t hnl hi).trans (nlSkip_suffix cs r hm).isInfix)
        | none =>
          rw [show collapseF (f + 1) ('\n' :: cs) = '\n' :: collapseF f cs from by
            simp only [collapseF, hm, if_pos]] at h
          rcases infix_cons_elim h with hp | hi
          · cases t with
            | nil => exact ⟨[], '\n' :: cs, rfl⟩
            | cons a t2 =>
              obtain ⟨u, hu⟩ := hp
              injection hu with h1 _
              subst h1
              exact absurd (List.mem_cons_self '\n' t2) hnl
          · exact infixConsOf '\n' (ih cs t hnl hi)
      · rw [show collapseF (f + 1) (c :: cs) = c :: collapseF f cs from by
          simp only [collapseF, if_neg hc]] at h
        rcases infix_cons_elim h with hp | hi
        · cases t with
          | nil => exact ⟨[], c :: cs, rfl⟩
          | cons a t2 =>
            obtain ⟨u, hu⟩ := hp
            injection hu with h1 h2
            subst h1
            exact (prefixConsOf a (collapseF_prefix_pres f cs t2
              (fun hmem => hnl (List.mem_cons_of_mem a hmem)) ⟨u, h2⟩)).isInfix
        · exact infixConsOf c (ih cs t hnl hi)

/-- Collapsing blank runs cannot create a bracket-then-`안내]` occurrence. -/
theorem collapseF_badBracket_pres :
    ∀ (f : Nat) (cs : List Char), BadBracket (collapseF f cs) → BadBracket cs := by
  intro f
  induction f with
  | zero => intro cs h; exact h
  | succ f ih =>
    intro cs h
    cases cs with
    | nil => exact h
    | cons c cs =>
      by_cases hc : c = '\n'
      · subst hc
        have hout : ∃ X, collapseF (f + 1) ('\n' :: cs) = '\n' :: X ∧
            (BadBracket X → BadBracket cs) := by
          cases hm : nlSkip cs with
          | some r =>
            refine ⟨collapseF f r, by simp only [collapseF, hm, if_pos], fun hb => ?_⟩
            exact badBracket_of_suffix (ih r hb) (nlSkip_suffix cs r hm)
          | none =>
            exact ⟨collapseF f cs, by simp only [collapseF, hm, if_pos], ih cs⟩
        obtain ⟨X, hX, hXpres⟩ := hout
        rw [hX] at h
        obtain ⟨u, hsuf, hinfix⟩ := h
        rcases List.suffix_cons_iff.mp hsuf with heq2 | hsuf2
        · injection heq2 with h1 _
          exact absurd h1 (by decide)
        · exact badBracket_of_suffix (hXpres ⟨u, hsuf2, hinfix⟩) (List.suffix_cons '\n' cs)
      · rw [show collapseF (f + 1) (c :: cs) = c :: collapseF f cs from by
          simp only [collapseF, if_neg hc]] at h
        obtain ⟨u, hsuf, hinfix⟩ := h
        rcases List.suffix_cons_iff.mp hsuf with heq2 | hsuf2
        · injection heq2 with h1 h2
          subst h1
          have hni : noticeClose <:+: cs :=
            collapseF_infix_pres f cs noticeClose (by decide) (h2 ▸ hinfix)
          exact ⟨cs, List.suffix_refl _, hni⟩
        · exact badBracket_of_suffix (ih cs ⟨u, hsuf2, hinfix⟩) (List.suffix_cons c cs)

/-- Stripping edge whitespace leaves an infix (a contiguous middle part)
of the text. -/
theorem pyStrip_isInfix (l : List Char) : pyStrip l <:+: l := by
  have h1 : l.dropWhile isPySpace <:+ l := List.dropWhile_suffix isPySpace
  have h2 : pyStrip l <+: l.dropWhile isPySpace := by
    apply List.reverse_suffix.mp
    rw [show (pyStrip l).reverse
        = ((l.dropWhile isPySpace).reverse.dropWhile isPySpace) from by
      simp [pyStrip]]
    exact List.dropWhile_suffix isPySpace
  exact h2.isInfix.trans h1.isInfix

/-- The full normalizer never outputs a bracket-then-`안내]` occurrence:
the first substitution removes all of them and the remaining passes cannot
create one. -/
theorem cleanCore_not_badBracket (cs : List Char) : ¬ BadBracket (cleanCore cs) := by
  intro h
  have h1 : BadBracket (collapseBlank (removeAll cs)) :=
    badBracket_of_isInfix h (pyStrip_isInfix _)
  have h2 : BadBracket (removeAll cs) := collapseF_badBracket_pres _ _ h1
  have h3 := subAllF_badBracket_pres beveragePat _ _ h2
  have h4 := subAllF_badBracket_pres starsPat _ _ h3
  have h5 := subAllF_badBracket_pres pricePat _ _ h4
  have h6 := subAllF_badBracket_pres refMarkPat _ _ h5
  have h7 := subAllF_badBracket_pres starOperPat _ _ h6
  have h8 := subAllF_badBracket_pres dashOperPat _ _ h7
  exact subAllF_noticePat_clears cs.length cs le_rfl h8

/-- A contiguous occurrence recognized by `infB` is an infix. -/
theorem infB_isInfix (w : List Char) : ∀ l, infB w l = true → w <:+: l := by
  intro l
  induction l with
  | nil =>
    intro h
    have hw : w = [] := by simpa [infB, List.isEmpty_iff] using h
    subst hw
    exact ⟨[], [], rfl⟩
  | cons c cs ih =>
    intro h
    have h2 : w.isPrefixOf (c :: cs) = true ∨ infB w cs = true := by
      simpa [infB] using h
    rcases h2 with hp | hr
    · exact (List.isPrefixOf_iff_prefix.mp hp).isInfix
    · exact infixConsOf c (ih hr)

/-- A bracketed notice line carries a bracket-then-`안내]` occurrence. -/
theorem lineBr_badBracket : ∀ l, lineBr l = true → BadBracket l := by
  intro l
  induction l with
  | nil => intro h; cases h
  | cons c cs ih =>
    intro h
    have h2 : (c = '[' ∧ infB noticeClose cs = true) ∨ lineBr cs = true := by
      simpa [lineBr] using h
    rcases h2 with ⟨hc2, hinf⟩ | hr
    · subst hc2
      exact ⟨cs, List.suffix_refl _, infB_isInfix noticeClose cs hinf⟩
    · exact badBracket_of_suffix (ih hr) (List.suffix_cons c cs)

/-- Every piece produced by splitting at newlines is an infix of the
text (the first piece is a prefix). -/
theorem splitNl_structure :
    ∀ l : List Char, ∃ m0 ms, splitNl l = m0 :: ms ∧ m0 <+: l ∧
      ∀ m ∈ ms, m <:+: l := by
  intro l
  induction l with
  | nil => exact ⟨[], [], rfl, List.nil_prefix, by simp⟩
  | cons c cs ih =>
    obtain ⟨m0, ms, hs, hp, hms⟩ := ih
    by_cases hc : c = '\n'
    · subst hc
      refine ⟨[], m0 :: ms, by simp [splitNl, hs], List.nil_prefix, ?_⟩
      intro m hm
      rcases List.mem_cons.mp hm with rfl | hm2
      · exact infixConsOf '\n' hp.isInfix
      · exact infixConsOf '\n' (hms m hm2)
    · refine ⟨c :: m0, ms, by simp [splitNl, hc, hs], prefixConsOf c hp, ?_⟩
      intro m hm
      exact infixConsOf c (hms m hm)

/-- Every line of a text is an infix of the text. -/
theorem splitNl_isInfix (l m : List Char) (hm : m ∈ splitNl l) : m <:+: l := by
  obtain ⟨m0, ms, hs, hp, hms⟩ := splitNl_structure l
  rw [hs] at hm
  rcases List.mem_cons.mp hm with rfl | hm2
  · exact hp.isInfix
  · exact hms m hm2

/-- A bracketed notice line anywhere in a text yields a
bracket-then-`안내]` occurrence in the whole text. -/
theorem hasBrNoticeLine_badBracket (l : List Char)
    (h : hasBrNoticeLine l = true) : BadBracket l := by
  rw [hasBrNoticeLine, List.any_eq_true] at h
  obtain ⟨ln, hln, hbr⟩ := h
  exact badBracket_of_isInfix (lineBr_badBracket ln hbr) (splitNl_isInfix l ln hln)

/-- C4 counterexample: the input `"[공지안내]x\n-y\n김치찌개\n운영z"`
contains a bracketed notice line, yet its normalization is the empty
string, so the non-noise lines `-y`, `김치찌개` and `운영z` (no removal
pattern matches within any of them) do not appear in the output: the
bracket pattern and the `-…운영` pattern match across line boundaries
under `re.DOTALL` and delete the enclosed menu line. -/
theorem clean_menu_text_drops_non_noise_line :
    hasBrNoticeLine "[공지안내]x\n-y\n김치찌개\n운영z".data = true ∧
    clean_menu_text "[공지안내]x\n-y\n김치찌개\n운영z" = "" ∧
    ¬ List.Sublist (nonNoiseLines "[공지안내]x\n-y\n김치찌개\n운영z".data)
        (splitNl (clean_menu_text "[공지안내]x\n-y\n김치찌개\n운영z").data) := by
  refine ⟨by decide, by decide, ?_⟩
  intro hsub
  have := hsub.length_le
  revert this
  decide

/-- C4 (amended): for every raw input containing a bracketed notice line,
the normalized output contains no bracketed notice line, and the output is
a sublist of the input — surviving characters (hence surviving lines) keep
their original relative order; non-noise lines are only lost when they lie
inside a region matched across line boundaries by a removal rule. -/
theorem clean_menu_text_no_notice_line_order :
    ∀ s : String, hasBrNoticeLine s.data = true →
      hasBrNoticeLine (clean_menu_text s).data = false ∧
      List.Sublist (clean_menu_text s).data s.data := by
  intro s _
  rw [clean_menu_text_data]
  constructor
  · cases hres : hasBrNoticeLine (cleanCore s.data) with
    | false => rfl
    | true =>
      exact absurd (hasBrNoticeLine_badBracket _ hres) (cleanCore_not_badBracket s.data)
  · have h1 : List.Sublist (cleanCore s.data) (collapseBlank (removeAll s.data)) :=
      (pyStrip_isInfix _).sublist
    have h2 : List.Sublist (collapseBlank (removeAll s.data)) (removeAll s.data) :=
      collapseF_sublist _ _
    have h3 : List.Sublist (removeAll s.data) s.data := by
      have s1 : List.Sublist (subAll noticePat s.data) s.data :=
        subAllF_sublist noticePat _ _
      have s2 := subAllF_sublist dashOperPat (subAll noticePat s.data).length
        (subAll noticePat s.data)
      have s3 := subAllF_sublist starOperPat (subAll dashOperPat
        (subAll noticePat s.data)).length (subAll dashOperPat (subAll noticePat s.data))
      have s4 := subAllF_sublist refMarkPat (subAll starOperPat (subAll dashOperPat
        (subAll noticePat s.data))).length (subAll starOperPat (subAll dashOperPat
        (subAll noticePat s.data)))
      have s5 := subAllF_sublist pricePat (subAll refMarkPat (subAll starOperPat
        (subAll dashOperPat (subAll noticePat s.data)))).length (subAll refMarkPat
        (subAll starOperPat (subAll dashOperPat (subAll noticePat s.data))))
      have s6 := subAllF_sublist starsPat (subAll pricePat (subAll refMarkPat
        (subAll starOperPat (subAll dashOperPat (subAll noticePat s.data))))).length
        (subAll pricePat (subAll refMarkPat (subAll starOperPat (subAll dashOperPat
        (subAll noticePat s.data)))))
      have s7 := subAllF_sublist beveragePat (subAll starsPat (subAll pricePat
        (subAll refMarkPat (subAll starOperPat (subAll dashOperPat
        (subAll noticePat s.data)))))).length (subAll starsPat (subAll pricePat
        (subAll refMarkPat (subAll starOperPat (subAll dashOperPat
        (subAll noticePat s.data))))))
      exact (((((s7.trans s6).trans s5).trans s4).trans s3).trans s2).trans s1
    exact (h1.trans h2).trans h3

/-- The guarantee of C4 evaluated at the holiday-notice scenario input:
the input has a bracketed notice line, the output has none, and the output
is a sublist of the input. -/
theorem clean_menu_text_no_notice_line_order_witness :
    hasBrNoticeLine "[휴무 안내] 오늘은 휴무입니다\n김치찌개\n밥".data = true ∧
    (hasBrNoticeLine (clean_menu_text "[휴무 안내] 오늘은 휴무입니다\n김치찌개\n밥").data
        = false ∧
      List.Sublist (clean_menu_text "[휴무 안내] 오늘은 휴무입니다\n김치찌개\n밥").data
        "[휴무 안내] 오늘은 휴무입니다\n김치찌개\n밥".data) :=
  ⟨by decide,
   clean_menu_text_no_notice_line_order "[휴무 안내] 오늘은 휴무입니다\n김치찌개\n밥"
     (by decide)⟩

/-- After a blank-run skip (or when no skip applies), the collapsed text
cannot begin with whitespace leading to a newline: the whitespace run it
starts with contains no newline. -/
theorem collapseF_headNotNl :
    ∀ (f : Nat) (cs : List Char), cs.length ≤ f → nlSkip cs = none →
      ¬ ((collapseF f cs).dropWhile wsNotNl).head? = some '\n' := by
  intro f
  induction f with
  | zero =>
    intro cs hf _
    have hnil : cs = [] := List.length_eq_zero.mp (Nat.le_zero.mp hf)
    subst hnil
    intro h
    simp [collapseF] at h
  | succ f ih =>
    intro cs hf hns
    cases cs with
    | nil =>
      intro h
      simp [collapseF] at h
    | cons c cs =>
      by_cases hws : isPySpace c = true
      · have hns2 : nlSkip cs = none ∧ c ≠ '\n' := by
          simp only [nlSkip, if_pos hws] at hns
          cases hm : nlSkip cs with
          | some r => rw [hm] at hns; cases hns
          | none =>
            rw [hm] at hns
            by_cases hc : c = '\n'
            · rw [if_pos hc] at hns; cases hns
            · exact ⟨rfl, hc⟩
        obtain ⟨hnone, hcne⟩ := hns2
        rw [show collapseF (f + 1) (c :: cs) = c :: collapseF f cs from by
          simp only [collapseF, if_neg hcne]]
        rw [List.dropWhile_cons,
          if_pos (show wsNotNl c = true from by simp [wsNotNl, hws, hcne])]
        exact ih cs (by simp at hf ⊢; omega) hnone
      · have hcne : c ≠ '\n' := by
          intro hc
          subst hc
          exact hws (by decide)
        rw [show collapseF (f + 1) (c :: cs) = c :: collapseF f cs from by
          simp only [collapseF, if_neg hcne]]
        rw [List.dropWhile_cons,
          if_neg (show ¬ wsNotNl c = true from by simp [wsNotNl, hws])]
        intro h
        injection h with h2
        exact hcne h2

/-- The collapsed text has no blank-line run left: between any two
surviving newlines there is a non-whitespace character. -/
theorem collapseF_noBlankRun :
    ∀ (f : Nat) (cs : List Char), cs.length ≤ f →
      hasBlankRun (collapseF f cs) = false := by
  intro f
  induction f with
  | zero =>
    intro cs hf
    have hnil : cs = [] := List.length_eq_zero.mp (Nat.le_zero.mp hf)
    subst hnil
    simp [collapseF, hasBlankRun]
  | succ f ih =>
    intro cs hf
    cases cs with
    | nil => simp [collapseF, hasBlankRun]
    | cons c cs =>
      by_cases hc : c = '\n'
      · subst hc
        cases hm : nlSkip cs with
        | some r =>
          rw [show collapseF (f + 1) ('\n' :: cs) = '\n' :: collapseF f r from by
            simp only [collapseF, hm, if_pos]]
          have hlen : r.length ≤ f := by
            have := nlSkip_lt cs r hm
            simp at hf
            omega
          have hhead := collapseF_headNotNl f r hlen (nlSkip_none_after cs r hm)
          have hrec := ih r hlen
          simp [hasBlankRun, hrec, hhead]
        | none =>
          rw [show collapseF (f + 1) ('\n' :: cs) = '\n' :: collapseF f cs from by
            simp only [collapseF, hm, if_pos]]
          have hlen : cs.length ≤ f := by simp at hf; omega
          have hhead := collapseF_headNotNl f cs hlen hm
          have hrec := ih cs hlen
          simp [hasBlankRun, hrec, hhead]
      · rw [show collapseF (f + 1) (c :: cs) = c :: collapseF f cs from by
          simp only [collapseF, if_neg hc]]
        have hrec := ih cs (by simp at hf; omega)
        simp [hasBlankRun, hrec, hc]

/-- A blank run in a left part survives appending on the right. -/
theorem hasBlankRun_append_of_left :
    ∀ l₁ l₂ : List Char, hasBlankRun l₁ = true → hasBlankRun (l₁ ++ l₂) = true := by
  intro l₁
  induction l₁ with
  | nil =>
    intro l₂ h
    simp [hasBlankRun] at h
  | cons c l₁ ih =>
    intro l₂ h
    have h2 : (c = '\n' ∧ (l₁.dropWhile wsNotNl).head? = some '\n') ∨
        hasBlankRun l₁ = true := by
      simpa [hasBlankRun] using h
    rcases h2 with ⟨hc, hhead⟩ | hr
    · subst hc
      have hne : l₁.dropWhile wsNotNl ≠ [] := by
        intro he
        rw [he] at hhead
        cases hhead
      have happ : (l₁ ++ l₂).dropWhile wsNotNl = l₁.dropWhile wsNotNl ++ l₂ := by
        rw [List.dropWhile_append, if_neg (by simpa [List.isEmpty_iff] using hne)]
      simp [hasBlankRun, happ, List.head?_append_of_ne_nil _ hne, hhead]
    · simp [hasBlankRun, ih l₂ hr]

/-- A blank run in a right part survives prepending on the left. -/
theorem hasBlankRun_append_of_right :
    ∀ l₁ l₂ : List Char, hasBlankRun l₂ = true → hasBlankRun (l₁ ++ l₂) = true := by
  intro l₁
  induction l₁ with
  | nil => intro l₂ h; simpa using h
  | cons c l₁ ih => intro l₂ h; simp [hasBlankRun, ih l₂ h]

/-- A blank run in an infix is a blank run of the whole text. -/
theorem hasBlankRun_of_isInfix {m l : List Char} (h : m <:+: l)
    (hm : hasBlankRun m = true) : hasBlankRun l = true := by
  obtain ⟨s, t, rfl⟩ := h
  rw [List.append_assoc]
  exact hasBlankRun_append_of_right s _ (hasBlankRun_append_of_left m t hm)

/-- The stripped text is a prefix of the text with leading whitespace
dropped. -/
theorem pyStrip_prefix_dropWhile (l : List Char) :
    pyStrip l <+: l.dropWhile isPySpace := by
  apply List.reverse_suffix.mp
  rw [show (pyStrip l).reverse
      = ((l.dropWhile isPySpace).reverse.dropWhile isPySpace) from by simp [pyStrip]]
  exact List.dropWhile_suffix isPySpace

/-- A stripped text never starts with whitespace. -/
theorem pyStrip_head_not_ws (l : List Char) (c : Char)
    (h : (pyStrip l).head? = some c) : isPySpace c = false := by
  obtain ⟨u, hu⟩ := pyStrip_prefix_dropWhile l
  cases hl : pyStrip l with
  | nil =>
    rw [hl] at h
    cases h
  | cons a t =>
    rw [hl] at h hu
    injection h with h2
    subst h2
    have hhead : (l.dropWhile isPySpace).head? = some a := by
      rw [← hu]
      rfl
    exact head_dropWhile_not isPySpace l a hhead

/-- A stripped text never ends with whitespace. -/
theorem pyStrip_getLast_not_ws (l : List Char) (c : Char)
    (h : (pyStrip l).getLast? = some c) : isPySpace c = false := by
  have h2 : ((l.dropWhile isPySpace).reverse.dropWhile isPySpace).head? = some c := by
    rw [← List.getLast?_reverse]
    exact h
  exact head_dropWhile_not isPySpace _ c h2

/-- C6: for every input, after the removal rules `clean_menu_text`
collapses blank-line runs (the output has no two newlines separated only
by non-newline whitespace) and trims the whole block (the output neither
starts nor ends with whitespace); the empty string is a possible, valid
result, reached when all content was noise. -/
theorem clean_menu_text_collapse_trim_empty :
    (∀ s : String, hasBlankRun (clean_menu_text s).data = false ∧
      (∀ c, (clean_menu_text s).data.head? = some c → isPySpace c = false) ∧
      (∀ c, (clean_menu_text s).data.getLast? = some c → isPySpace c = false)) ∧
    clean_menu_text "※ 전체 휴무" = "" := by
  refine ⟨?_, by decide⟩
  intro s
  rw [clean_menu_text_data]
  refine ⟨?_, fun c h => pyStrip_head_not_ws _ c h, fun c h => pyStrip_getLast_not_ws _ c h⟩
  cases hres : hasBlankRun (cleanCore s.data) with
  | false => rfl
  | true =>
    have hc : hasBlankRun (collapseBlank (removeAll s.data)) = true :=
      hasBlankRun_of_isInfix (pyStrip_isInfix _) hres
    rw [show collapseBlank (removeAll s.data)
        = collapseF (removeAll s.data).length (removeAll s.data) from rfl] at hc
    rw [collapseF_noBlankRun (removeAll s.data).length (removeAll s.data) le_rfl] at hc
    cases hc

end AjouLunch
